import Mathlib

/-!
Shallow embedding of the recursive concurrent byte-pattern search tool
(single C file: `naive_search`, `thread_search`, `search_directory`, `main`).

Buffers and patterns are modelled as `List Nat` of byte values, file paths as
`String`.  The C functions are translated one by one; C's `-1` failure result
becomes `Option.none`, the `while` loops become fuel-bounded recursions whose
fuel provably suffices, and the per-entry file-system outcomes (open/fstat
failures, zero-size files, unreadable directories) become explicit
constructors of a directory-tree data type.
-/

/-- Embedding of `no_case_change` from the source: identity on a byte. -/
def no_case_change (x : Nat) : Nat := x

/-- Embedding of the C library `tolower` as applied by `main` to byte values
in the default locale: bytes 65..90 (ASCII A..Z) map to 97..122 (a..z),
every other value is unchanged. -/
def tolower (x : Nat) : Nat := if 65 ≤ x ∧ x ≤ 90 then x + 32 else x

/-- Inner loop of `naive_search` at alignment `i`: the loop over `j` compares
`callback(data[i + j])` with `callback(pattern[j])` for `j < pat_len`,
breaking at the first mismatch; the alignment matches when `j` reaches
`pat_len`, i.e. when all positions agree. -/
def alignMatches (f : Nat → Nat) (data pat : List Nat) (i : Nat) : Bool :=
  (List.range pat.length).all fun j =>
    f (data.getD (i + j) 0) == f (pat.getD j 0)

/-- Outer loop of `naive_search`: try alignments `i, i + 1, ...`, returning
the first one that fully matches.  The fuel argument bounds the iteration
count; the source iterates `i` from `0` to `data_len - pat_len`, which is
`data_len - pat_len + 1` iterations. -/
def searchFrom (f : Nat → Nat) (data pat : List Nat) (i : Nat) : Nat → Option Nat
  | 0 => none
  | fuel + 1 =>
    if alignMatches f data pat i then some i
    else searchFrom f data pat (i + 1) fuel

/-- Embedding of `naive_search`: returns `none` where the C function returns
`-1` (empty pattern or buffer shorter than the pattern or no alignment
matches), otherwise the first matching alignment. -/
def naive_search (data pat : List Nat) (f : Nat → Nat) : Option Nat :=
  if pat.length = 0 ∨ data.length < pat.length then none
  else searchFrom f data pat 0 (data.length - pat.length + 1)

/-- Trace of the alignments examined by the outer loop of `naive_search`:
the loop visits `0, 1, 2, ...` in order and stops at the first full match
(or after alignment `data_len - pat_len` if none matches). -/
def scanAlignments (f : Nat → Nat) (data pat : List Nat) (i : Nat) : Nat → List Nat
  | 0 => []
  | fuel + 1 =>
    if alignMatches f data pat i then [i]
    else i :: scanAlignments f data pat (i + 1) fuel

/-- Alignment trace of one `naive_search` call (same guards as the call
itself: an empty pattern or a buffer shorter than the pattern examines no
alignment). -/
def naiveAlignments (data pat : List Nat) (f : Nat → Nat) : List Nat :=
  if pat.length = 0 ∨ data.length < pat.length then []
  else scanAlignments f data pat 0 (data.length - pat.length + 1)

/-- Match-emission loop of `thread_search`: `offset` starts at `0`; while
`offset <= filesize - pat_len` (size_t arithmetic; with a nonempty buffer
the first iteration always runs, matching the C loop, and the
subtraction-underflow case `pat_len > filesize` likewise runs one iteration
that immediately fails), search the suffix starting at `offset`, record
`offset + pos`, and restart at `offset + pos + 1`.  Fuel bounds the
iterations; `filesize + 1` provably suffices. -/
def scanLoop (data pat : List Nat) (f : Nat → Nat) (offset : Nat) : Nat → List Nat
  | 0 => []
  | fuel + 1 =>
    if offset ≤ data.length - pat.length then
      match naive_search (data.drop offset) pat f with
      | none => []
      | some pos => (offset + pos) :: scanLoop data pat f (offset + pos + 1) fuel
    else []

/-- The sequence of byte offsets emitted for one file's contents by
`thread_search` (the per-file Match Stream, offsets only). -/
def scanOffsets (data pat : List Nat) (f : Nat → Nat) : List Nat :=
  scanLoop data pat f 0 (data.length + 1)

/-- Specification-side occurrence predicate: the slice `T[i..i+|P|)` equals
`P` under the case folding `f` applied to both sides. -/
def occursAt (f : Nat → Nat) (data pat : List Nat) (i : Nat) : Bool :=
  ((data.drop i).take pat.length).map f == pat.map f

/-- Specification-side list of all (possibly overlapping) occurrence offsets
of the pattern in the buffer, in increasing order. -/
def occurrences (data pat : List Nat) (f : Nat → Nat) : List Nat :=
  (List.range (data.length + 1 - pat.length)).filter (occursAt f data pat)

example : scanOffsets [97, 97, 97, 97] [97, 97] no_case_change = [0, 1, 2] := by decide
example : occurrences [97, 97, 97, 97] [97, 97] no_case_change = [0, 1, 2] := by decide
example : naive_search [98, 97, 98] [97] no_case_change = some 1 := by decide
example : naive_search [65, 66] [97, 98] tolower = some 0 := by decide
example : naiveAlignments [120, 120, 97, 98] [97, 98] no_case_change = [0, 1, 2] := by decide

/-- Indexing with default commutes with `drop` (out-of-range reads return the
default on both sides). -/
theorem getD_drop (l : List Nat) (i j : Nat) :
    (l.drop i).getD j 0 = l.getD (i + j) 0 := by
  induction l generalizing i with
  | nil => simp
  | cons x xs ih =>
    cases i with
    | zero => simp
    | succ i =>
      have : i + 1 + j = (i + j) + 1 := by omega
      rw [this, List.drop_succ_cons, List.getD_cons_succ, ih]

/-- The inner-loop comparison at alignment `j` of a dropped buffer is the
comparison at alignment `offset + j` of the original buffer. -/
theorem alignMatches_drop (f : Nat → Nat) (d p : List Nat) (off j : Nat) :
    alignMatches f (d.drop off) p j = alignMatches f d p (off + j) := by
  unfold alignMatches
  congr 1
  funext j'
  rw [getD_drop, Nat.add_assoc]

/-- Pointwise reading of `alignMatches`. -/
theorem alignMatches_iff (f : Nat → Nat) (d p : List Nat) (i : Nat) :
    alignMatches f d p i = true ↔
      ∀ j, j < p.length → f (d.getD (i + j) 0) = f (p.getD j 0) := by
  simp [alignMatches, List.all_eq_true, List.mem_range]

/-- On in-range alignments the loop comparison agrees with the spec-side
slice comparison `T[i..i+|P|) == P` (folded on both sides). -/
theorem alignMatches_eq_occursAt (f : Nat → Nat) (d p : List Nat) (i : Nat)
    (h : i + p.length ≤ d.length) :
    alignMatches f d p i = occursAt f d p i := by
  have hlen : ((d.drop i).take p.length).length = p.length := by
    simp [List.length_take, List.length_drop]
    omega
  rcases hoc : occursAt f d p i with _ | _
  · rcases ham : alignMatches f d p i with _ | _
    · rfl
    · exfalso
      rw [alignMatches_iff] at ham
      have : ((d.drop i).take p.length).map f = p.map f := by
        apply List.ext_getElem
        · simpa using hlen
        · intro j h₁ h₂
          have hj : j < p.length := by simpa [hlen] using h₂
          have hjd : i + j < d.length := by omega
          have := ham j hj
          rw [List.getD_eq_getElem d 0 hjd, List.getD_eq_getElem p 0 hj] at this
          simp only [List.getElem_map, List.getElem_take, List.getElem_drop]
          exact this
      rw [occursAt, this] at hoc
      simp at hoc
  · rw [occursAt, beq_iff_eq] at hoc
    rw [alignMatches_iff]
    intro j hj
    have hjd : i + j < d.length := by omega
    have hj' : j < ((d.drop i).take p.length).length := by omega
    have hjm : j < (((d.drop i).take p.length).map f).length := by simpa using hj'
    have := congrArg (fun l => l[j]?) hoc
    simp only [List.getElem?_eq_getElem hjm,
      List.getElem?_eq_getElem (by simpa using hj : j < (p.map f).length)] at this
    simp only [List.getElem_map, List.getElem_take, List.getElem_drop] at this
    rw [List.getD_eq_getElem d 0 hjd, List.getD_eq_getElem p 0 hj]
    exact Option.some_injective _ this

/-- When the outer loop returns alignment `r`, that alignment matches, it
lies in the searched window, and every alignment before it fails. -/
theorem searchFrom_some (f : Nat → Nat) (d p : List Nat) :
    ∀ fuel i r, searchFrom f d p i fuel = some r →
      alignMatches f d p r = true ∧ i ≤ r ∧ r < i + fuel ∧
        ∀ j, i ≤ j → j < r → alignMatches f d p j = false := by
  intro fuel
  induction fuel with
  | zero => intro i r h; simp [searchFrom] at h
  | succ fuel ih =>
    intro i r h
    rw [searchFrom] at h
    rcases ha : alignMatches f d p i with _ | _
    · rw [ha] at h
      simp only [Bool.false_eq_true, if_false] at h
      obtain ⟨h1, h2, h3, h4⟩ := ih (i + 1) r h
      refine ⟨h1, by omega, by omega, ?_⟩
      intro j hj1 hj2
      rcases Nat.lt_or_ge j (i + 1) with hj | hj
      · have : j = i := by omega
        rw [this]; exact ha
      · exact h4 j hj hj2
    · rw [ha] at h
      simp only [if_true] at h
      cases h
      exact ⟨ha, Nat.le_refl _, by omega, fun j hj1 hj2 => absurd hj2 (by omega)⟩

/-- When the outer loop reports no match, every alignment in the searched
window fails. -/
theorem searchFrom_none (f : Nat → Nat) (d p : List Nat) :
    ∀ fuel i, searchFrom f d p i fuel = none →
      ∀ j, i ≤ j → j < i + fuel → alignMatches f d p j = false := by
  intro fuel
  induction fuel with
  | zero => intro i _ j hj1 hj2; omega
  | succ fuel ih =>
    intro i h j hj1 hj2
    rw [searchFrom] at h
    rcases ha : alignMatches f d p i with _ | _
    · rw [ha] at h
      simp only [Bool.false_eq_true, if_false] at h
      rcases Nat.lt_or_ge j (i + 1) with hj | hj
      · have : j = i := by omega
        rw [this]; exact ha
      · exact ih (i + 1) h j hj (by omega)
    · rw [ha] at h
      simp at h

/-- The outer loop is `find?` over the window of alignments. -/
theorem searchFrom_eq_find? (f : Nat → Nat) (d p : List Nat) :
    ∀ fuel i, searchFrom f d p i fuel =
      (List.range' i fuel).find? (alignMatches f d p) := by
  intro fuel
  induction fuel with
  | zero => intro i; rfl
  | succ fuel ih =>
    intro i
    rw [searchFrom, show List.range' i (fuel + 1) = i :: List.range' (i + 1) fuel from rfl,
      List.find?_cons]
    rcases ha : alignMatches f d p i with _ | _ <;> simp [ha, ih]

/-- `find?` returns the head of the filtered list. -/
theorem find?_eq_head?_filter (q : Nat → Bool) :
    ∀ l : List Nat, l.find? q = (l.filter q).head? := by
  intro l
  induction l with
  | nil => rfl
  | cons x xs ih =>
    rw [List.find?_cons, List.filter_cons]
    rcases hx : q x with _ | _
    · simp only [Bool.false_eq_true, if_false]
      exact ih
    · simp

/-- Filtering a window whose first satisfying element is at relative
position `pos` peels off exactly that element. -/
theorem filter_range'_first (q : Nat → Bool) :
    ∀ pos K s, pos < K → q (s + pos) = true → (∀ j, j < pos → q (s + j) = false) →
      (List.range' s K).filter q =
        (s + pos) :: (List.range' (s + pos + 1) (K - pos - 1)).filter q := by
  intro pos
  induction pos with
  | zero =>
    intro K s hK hq _
    obtain ⟨K', rfl⟩ : ∃ K', K = K' + 1 := ⟨K - 1, by omega⟩
    rw [show List.range' s (K' + 1) = s :: List.range' (s + 1) K' from rfl, List.filter_cons]
    simp only [Nat.add_zero] at hq
    simp [hq]
  | succ pos ih =>
    intro K s hK hq hprev
    obtain ⟨K', rfl⟩ : ∃ K', K = K' + 1 := ⟨K - 1, by omega⟩
    rw [show List.range' s (K' + 1) = s :: List.range' (s + 1) K' from rfl, List.filter_cons]
    have hs : q s = false := by
      have := hprev 0 (by omega)
      simpa using this
    rw [hs]
    simp only [Bool.false_eq_true, if_false]
    have h1 : s + 1 + pos = s + (pos + 1) := by omega
    have h2 : ∀ j, j < pos → q (s + 1 + j) = false := by
      intro j hj
      have := hprev (j + 1) (by omega)
      have e : s + (j + 1) = s + 1 + j := by omega
      rwa [e] at this
    have := ih K' (s + 1) (by omega) (by rwa [h1]) h2
    have e2 : K' - pos - 1 = K' + 1 - (pos + 1) - 1 := by omega
    rw [this, h1, e2]

/-- Central loop invariant: with enough fuel, the emission loop of
`thread_search` starting at `offset` returns exactly the matching alignments
in `[offset, data_len - pat_len]`, in increasing order. -/
theorem scanLoop_eq_filter (d p : List Nat) (f : Nat → Nat) (hm : 1 ≤ p.length) :
    ∀ fuel offset, d.length + 1 - p.length - offset < fuel →
      scanLoop d p f offset fuel =
        (List.range' offset (d.length + 1 - p.length - offset)).filter
          (alignMatches f d p) := by
  intro fuel
  induction fuel with
  | zero => intro offset h; omega
  | succ fuel ih =>
    intro offset hfuel
    rw [scanLoop]
    rcases le_or_lt offset (d.length - p.length) with hg | hg
    · rw [if_pos hg]
      rcases le_or_lt p.length d.length with hnm | hnm
      · -- pattern fits in the buffer
        have hguard : ¬(p.length = 0 ∨ (d.drop offset).length < p.length) := by
          rw [List.length_drop]
          push_neg
          omega
        rw [naive_search, if_neg hguard, List.length_drop]
        have hK : d.length - offset - p.length + 1 = d.length + 1 - p.length - offset := by
          omega
        rcases hs : searchFrom f (d.drop offset) p 0 (d.length - offset - p.length + 1)
          with _ | pos
        · -- no further match: the remaining window has no matching alignment
          have hnone := searchFrom_none f (d.drop offset) p _ 0 hs
          symm
          rw [List.filter_eq_nil_iff]
          intro a ha
          rw [List.mem_range'_1] at ha
          have heq : alignMatches f d p a = alignMatches f (d.drop offset) p (a - offset) := by
            rw [alignMatches_drop]
            congr 1
            omega
          rw [heq]
          have := hnone (a - offset) (by omega) (by omega)
          simp [this]
        · -- first match of the window at relative position pos
          obtain ⟨hmt, _, hlt, hfirst⟩ := searchFrom_some f (d.drop offset) p _ 0 pos hs
          rw [alignMatches_drop] at hmt
          have hfirst' : ∀ j, j < pos → alignMatches f d p (offset + j) = false := by
            intro j hj
            have := hfirst j (by omega) hj
            rwa [alignMatches_drop] at this
          rw [filter_range'_first (alignMatches f d p) pos _ offset (by omega) hmt hfirst']
          have e : d.length + 1 - p.length - offset - pos - 1 =
              d.length + 1 - p.length - (offset + pos + 1) := by omega
          rw [e, ← ih (offset + pos + 1) (by omega)]
      · -- pattern longer than the buffer: the guard entered once, search fails
        have hoff : offset = 0 := by omega
        have hguard : p.length = 0 ∨ (d.drop offset).length < p.length := by
          rw [List.length_drop]
          omega
        rw [naive_search, if_pos hguard]
        have : d.length + 1 - p.length - offset = 0 := by omega
        rw [this]
        rfl
    · rw [if_neg (by omega)]
      have : d.length + 1 - p.length - offset = 0 := by omega
      rw [this]
      rfl

/-- The emission loop, with its actual fuel, equals the filtered list of
matching alignments (stated with the loop-side predicate). -/
theorem scanOffsets_eq_filter (d p : List Nat) (f : Nat → Nat) (hm : 1 ≤ p.length) :
    scanOffsets d p f =
      (List.range (d.length + 1 - p.length)).filter (alignMatches f d p) := by
  rw [scanOffsets, scanLoop_eq_filter d p f hm (d.length + 1) 0 (by omega),
    Nat.sub_zero, List.range_eq_range']

/-- Over the in-range window, the loop-side predicate may be replaced by the
spec-side slice predicate. -/
theorem filter_window_congr (d p : List Nat) (f : Nat → Nat) :
    (List.range (d.length + 1 - p.length)).filter (alignMatches f d p) =
      occurrences d p f := by
  rw [occurrences]
  apply List.filter_congr
  intro i hi
  rw [List.mem_range] at hi
  exact alignMatches_eq_occursAt f d p i (by omega)

/-- Claim C4: in case-insensitive mode every comparison the Matcher makes is
`tolower x = tolower y`; two byte values are identified exactly when they are
equal or form an upper/lower-case ASCII pair, and any value outside the two
letter ranges is identified only with itself. -/
theorem tolower_comparison_classes (x y : Nat) :
    tolower x = tolower y ↔
      (x = y ∨ (65 ≤ x ∧ x ≤ 90 ∧ y = x + 32) ∨ (65 ≤ y ∧ y ≤ 90 ∧ x = y + 32)) := by
  unfold tolower
  split_ifs <;> omega

/-- Claim C1: for every buffer and every nonempty pattern, the File Scanner's
emitted offset sequence is exactly the increasing enumeration of all
(possibly overlapping) occurrence offsets `{ i : T[i..i+|P|) == P }` under
the active case folding, and in particular pattern "aa" over content "aaaa"
yields offsets 0, 1, 2. -/
theorem scanner_stream_eq_occurrences :
    (∀ (data pat : List Nat) (f : Nat → Nat), 1 ≤ pat.length →
        scanOffsets data pat f = occurrences data pat f ∧
          (scanOffsets data pat f).Pairwise (· < ·)) ∧
      scanOffsets [97, 97, 97, 97] [97, 97] no_case_change = [0, 1, 2] := by
  constructor
  · intro data pat f hm
    have heq : scanOffsets data pat f = occurrences data pat f := by
      rw [scanOffsets_eq_filter data pat f hm, filter_window_congr]
    refine ⟨heq, ?_⟩
    rw [heq, occurrences]
    exact List.Pairwise.sublist (List.filter_sublist _) (List.pairwise_lt_range _)
  · decide

/-- Witness for C1 at pattern "aa", content "aaaa". -/
theorem scanner_stream_eq_occurrences_witness :
    1 ≤ ([97, 97] : List Nat).length ∧
      (scanOffsets [97, 97, 97, 97] [97, 97] no_case_change =
          occurrences [97, 97, 97, 97] [97, 97] no_case_change ∧
        (scanOffsets [97, 97, 97, 97] [97, 97] no_case_change).Pairwise (· < ·)) :=
  ⟨by decide, scanner_stream_eq_occurrences.1 [97, 97, 97, 97] [97, 97] no_case_change
    (by decide)⟩

/-- Claim C2: for every nonempty pattern, `naive_search` returns the head of
the increasing list of occurrence offsets: the smallest `i` with
`T[i..i+|P|) == P` under the active folding, and `none` (C's -1) exactly
when the buffer is shorter than the pattern or no such `i` exists. -/
theorem naive_search_first_match (data pat : List Nat) (f : Nat → Nat)
    (hm : 1 ≤ pat.length) :
    naive_search data pat f = (occurrences data pat f).head? := by
  rw [← filter_window_congr, naive_search]
  rcases le_or_lt pat.length data.length with hnm | hnm
  · rw [if_neg (by push_neg; omega), searchFrom_eq_find?, find?_eq_head?_filter]
    congr 2
    rw [← List.range_eq_range']
    congr 1
    omega
  · rw [if_pos (by omega)]
    have : data.length + 1 - pat.length = 0 := by omega
    rw [this]
    rfl

/-- Witness for C2: buffer "bab", pattern "ab". -/
theorem naive_search_first_match_witness :
    1 ≤ ([97, 98] : List Nat).length ∧
      naive_search [98, 97, 98] [97, 98] no_case_change =
        (occurrences [98, 97, 98] [97, 98] no_case_change).head? :=
  ⟨by decide, naive_search_first_match [98, 97, 98] [97, 98] no_case_change (by decide)⟩

/-- Every alignment the outer loop examines lies in the window it was
started on. -/
theorem scanAlignments_mem (f : Nat → Nat) (d p : List Nat) :
    ∀ fuel s i, i ∈ scanAlignments f d p s fuel → s ≤ i ∧ i < s + fuel := by
  intro fuel
  induction fuel with
  | zero => intro s i h; simp [scanAlignments] at h
  | succ fuel ih =>
    intro s i h
    rw [scanAlignments] at h
    rcases ha : alignMatches f d p s with _ | _
    · rw [ha] at h
      simp only [Bool.false_eq_true, if_false, List.mem_cons] at h
      rcases h with h | h
      · omega
      · have := ih (s + 1) i h
        omega
    · rw [ha] at h
      simp at h
      omega

/-- The alignment trace is a contiguous block `s, s + 1, ..., s + k - 1`. -/
theorem scanAlignments_eq_range' (f : Nat → Nat) (d p : List Nat) :
    ∀ fuel s, ∃ k, k ≤ fuel ∧ scanAlignments f d p s fuel = List.range' s k := by
  intro fuel
  induction fuel with
  | zero => exact fun s => ⟨0, Nat.le_refl 0, rfl⟩
  | succ fuel ih =>
    intro s
    rw [scanAlignments]
    rcases ha : alignMatches f d p s with _ | _
    · simp only [Bool.false_eq_true, if_false]
      obtain ⟨k, hk, he⟩ := ih (s + 1)
      exact ⟨k + 1, by omega, by rw [he]; rfl⟩
    · exact ⟨1, by omega, by simp⟩

/-- Claim C9: the embedded `naive_search` is total (a function in Lean) and
memory-safe: a returned index satisfies `i + pat_len <= data_len` (so it lies
in `[0, data_len - pat_len]`), and every alignment `i` the loop examines
reads `data` only at indices `i + j < data_len` for `j < pat_len` (the
pattern is read only at `j < pat_len` by construction of the inner loop). -/
theorem naive_search_bounds (data pat : List Nat) (f : Nat → Nat) :
    (∀ i, naive_search data pat f = some i → i + pat.length ≤ data.length) ∧
      (∀ i ∈ naiveAlignments data pat f, ∀ j, j < pat.length →
        i + j < data.length) := by
  constructor
  · intro i h
    rw [naive_search] at h
    rcases hg : decide (pat.length = 0 ∨ data.length < pat.length) with _ | _
    · rw [if_neg (of_decide_eq_false hg)] at h
      have hnm : pat.length ≤ data.length := by
        have := of_decide_eq_false hg
        push_neg at this
        omega
      obtain ⟨_, _, hlt, _⟩ := searchFrom_some f data pat _ 0 i h
      omega
    · rw [if_pos (of_decide_eq_true hg)] at h
      simp at h
  · intro i hi j hj
    rw [naiveAlignments] at hi
    rcases hg : decide (pat.length = 0 ∨ data.length < pat.length) with _ | _
    · rw [if_neg (of_decide_eq_false hg)] at hi
      have hnm : pat.length ≤ data.length := by
        have := of_decide_eq_false hg
        push_neg at this
        omega
      have := scanAlignments_mem f data pat _ 0 i hi
      omega
    · rw [if_pos (of_decide_eq_true hg)] at hi
      simp at hi

/-- Witness for C9: buffer "bab", pattern "ab", where `naive_search`
returns index 1. -/
theorem naive_search_bounds_witness :
    1 + ([97, 98] : List Nat).length ≤ ([98, 97, 98] : List Nat).length :=
  (naive_search_bounds [98, 97, 98] [97, 98] no_case_change).1 1 (by decide)

/-- Claim C10: for every finite buffer and nonempty pattern the repeated-match
loop of `thread_search` terminates: any fuel of at least `filesize + 1`
yields the same (stable) result as the loop's actual fuel, and the number of
match iterations (one per emitted offset) is at most the file size. -/
theorem scan_loop_terminates (data pat : List Nat) (f : Nat → Nat)
    (hm : 1 ≤ pat.length) :
    (∀ fuel, data.length + 1 ≤ fuel →
        scanLoop data pat f 0 fuel = scanOffsets data pat f) ∧
      (scanOffsets data pat f).length ≤ data.length := by
  constructor
  · intro fuel hfuel
    have h1 := scanLoop_eq_filter data pat f hm fuel 0 (by omega)
    have h2 := scanLoop_eq_filter data pat f hm (data.length + 1) 0 (by omega)
    rw [scanOffsets, h1, h2]
  · rw [scanOffsets_eq_filter data pat f hm]
    calc ((List.range (data.length + 1 - pat.length)).filter
            (alignMatches f data pat)).length
        ≤ (List.range (data.length + 1 - pat.length)).length :=
          List.Sublist.length_le (List.filter_sublist _)
      _ ≤ data.length := by rw [List.length_range]; omega

/-- Witness for C10: content "aaaa", pattern "aa". -/
theorem scan_loop_terminates_witness :
    1 ≤ ([97, 97] : List Nat).length ∧
      ((∀ fuel, ([97, 97, 97, 97] : List Nat).length + 1 ≤ fuel →
          scanLoop [97, 97, 97, 97] [97, 97] no_case_change 0 fuel =
            scanOffsets [97, 97, 97, 97] [97, 97] no_case_change) ∧
        (scanOffsets [97, 97, 97, 97] [97, 97] no_case_change).length ≤
          ([97, 97, 97, 97] : List Nat).length) :=
  ⟨by decide, scan_loop_terminates [97, 97, 97, 97] [97, 97] no_case_change (by decide)⟩

/-- List update at an index (no-op out of range), used to build the
spec-described shift tables. -/
def listSet : List Nat → Nat → Nat → List Nat
  | [], _, _ => []
  | _ :: xs, 0, v => v :: xs
  | x :: xs, i + 1, v => x :: listSet xs i v

/-- Modelled from the spec (4.1), for comparison with the source (which has
no such table): the Boyer-Moore bad-character table, 256 entries initialised
to `m`, then `badChar[fold(pattern[i])] = m - 1 - i` for `i` from `0` to
`m - 2`. -/
def specBadChar (pat : List Nat) (f : Nat → Nat) : List Nat :=
  (List.range (pat.length - 1)).foldl
    (fun tbl i => listSet tbl (f (pat.getD i 0)) (pat.length - 1 - i))
    (List.replicate 256 pat.length)

/-- Modelled from the spec (4.1): `suff[i]` is the length of the longest
suffix of `pattern[0..i]` that equals a suffix of the full pattern, folded
comparisons throughout. -/
def specSuff (pat : List Nat) (f : Nat → Nat) (i : Nat) : Nat :=
  (((List.range (i + 2)).reverse).find? fun k =>
    ((pat.map f).take (i + 1)).drop (i + 1 - k) ==
      (pat.map f).drop (pat.length - k)).getD 0

/-- Modelled from the spec (4.1), for comparison with the source (which has
no such table): the Boyer-Moore good-suffix table built from `suff` by the
standard two passes (a forward pass for prefix-aligned suffix matches, then
overwrites for exact suffix matches). -/
def specGoodSuffix (pat : List Nat) (f : Nat → Nat) : List Nat :=
  let m := pat.length
  let pass1 := ((List.range m).reverse).foldl
    (fun gs i =>
      if specSuff pat f i = i + 1 then
        (List.range (m - 1 - i)).foldl
          (fun gs2 j => if gs2.getD j m = m then listSet gs2 j (m - 1 - i) else gs2)
          gs
      else gs)
    (List.replicate m m)
  (List.range (m - 1)).foldl
    (fun gs i => listSet gs (m - 1 - specSuff pat f i) (m - 1 - i)) pass1

/-- Right-to-left comparison at alignment `i` as the spec's Matcher (4.2)
prescribes: the pattern index of the first mismatch scanning from `m - 1`
down, or `none` on a full match. -/
def bmMismatch (f : Nat → Nat) (d pat : List Nat) (i : Nat) : Option Nat :=
  ((List.range pat.length).reverse).find? fun j =>
    !(f (d.getD (i + j) 0) == f (pat.getD j 0))

/-- Modelled from the spec (4.2): the scan loop of the spec's Boyer-Moore
Matcher, recording the alignments it examines; on mismatch at pattern index
`j` it advances by `max (badChar[fold(buffer[i+j])] - (m-1-j)) goodSuffix[j]`
clamped to at least 1, and it stops at the first full match. -/
def specBMScan (d pat : List Nat) (f : Nat → Nat) (badChar gs : List Nat)
    (i : Nat) : Nat → List Nat
  | 0 => []
  | fuel + 1 =>
    if i + pat.length ≤ d.length then
      match bmMismatch f d pat i with
      | none => [i]
      | some j =>
        let shift := max (badChar.getD (f (d.getD (i + j) 0)) pat.length -
          (pat.length - 1 - j)) (gs.getD j pat.length)
        i :: specBMScan d pat f badChar gs (i + max shift 1) fuel
    else []

/-- Alignment trace of one search by the Matcher the spec describes
(Boyer-Moore with the spec's bad-character and good-suffix tables). -/
def specBMAlignments (d pat : List Nat) (f : Nat → Nat) : List Nat :=
  if pat.length = 0 ∨ d.length < pat.length then []
  else specBMScan d pat f (specBadChar pat f) (specGoodSuffix pat f) 0 (d.length + 1)

example : specBMAlignments [120, 120, 97, 98] [97, 98] no_case_change = [0, 2] := by decide

/-- Counterexample to claim C3: on buffer "xxab" with pattern "ab" the
source's scan examines alignments 0, 1, 2 (advancing by exactly one), while
the Boyer-Moore scan the claim describes examines alignments 0, 2 (the
bad-character shift skips alignment 1): the Matcher does not follow the
claimed Boyer-Moore scheme. -/
theorem naive_scan_not_boyer_moore :
    naiveAlignments [120, 120, 97, 98] [97, 98] no_case_change = [0, 1, 2] ∧
      specBMAlignments [120, 120, 97, 98] [97, 98] no_case_change = [0, 2] ∧
      naiveAlignments [120, 120, 97, 98] [97, 98] no_case_change ≠
        specBMAlignments [120, 120, 97, 98] [97, 98] no_case_change := by
  refine ⟨by decide, by decide, by decide⟩

/-- Claim C3 amended: the Matcher's scan is naive, not Boyer-Moore: it has no
bad-character or good-suffix tables, and the alignments it examines are
exactly `0, 1, 2, ...` (every shift is 1) up to the first full match or the
end of the window. -/
theorem naive_scan_alignments_consecutive (data pat : List Nat) (f : Nat → Nat) :
    naiveAlignments data pat f = List.range (naiveAlignments data pat f).length := by
  rw [naiveAlignments]
  split_ifs with hg
  · rfl
  · obtain ⟨k, _, he⟩ :=
      scanAlignments_eq_range' f data pat (data.length - pat.length + 1) 0
    rw [he, List.length_range', ← List.range_eq_range']

/-- Outcome of `thread_search`'s attempt to open, fstat and mmap one file
(the distinct early-return paths of the C function). -/
inductive FileStatus where
  | openFail : FileStatus
  | fstatFail : FileStatus
  | mapFail : FileStatus
  | content : List Nat → FileStatus
deriving DecidableEq, Repr

/-- One directory entry as `search_directory` classifies it: a regular file
with the outcome its scan will encounter, a subdirectory (whose listing is
`none` when `opendir` fails), an entry of another type, or an entry whose
`stat` fails. -/
inductive Entry where
  | efile : String → FileStatus → Entry
  | edir : String → Option (List Entry) → Entry
  | eother : String → Entry
  | estatfail : String → Entry
deriving Repr

/-- Embedding of `thread_search` on one file: the `(path, byte offset)`
pairs it prints.  Open, fstat and mmap failures and zero-size files return
early with no output (the C function frees its arguments and returns -1
without printing). -/
def thread_search (path : String) (pat : List Nat) (f : Nat → Nat) :
    FileStatus → List (String × Nat)
  | FileStatus.openFail => []
  | FileStatus.fstatFail => []
  | FileStatus.mapFail => []
  | FileStatus.content data =>
    if data.length = 0 then []
    else (scanOffsets data pat f).map fun off => (path, off)

mutual

/-- Embedding of `search_directory`: first component is every match line the
subtree prints (concurrent interleaving abstracted as per-entry order),
second component the diagnostic lines.  A zero depth budget reports the
recursion limit and does not descend; an unreadable directory reports
`opendir` and is skipped; otherwise the entries are processed with the
budget decremented by one, exactly as `if (!(depth--))` does. -/
def searchDir (pat : List Nat) (f : Nat → Nat) (dirpath : String)
    (depth : Nat) (listing : Option (List Entry)) :
    List (String × Nat) × List String :=
  if depth = 0 then ([], ["Reached max recursion depth at " ++ dirpath])
  else
    match listing with
    | none => ([], ["opendir"])
    | some es => searchEntries pat f dirpath (depth - 1) es
termination_by (depth, 0)

/-- Handling of a single directory entry inside the `readdir` loop: a
subdirectory recurses (with the already-decremented budget `depth`), a
regular file contributes its `thread_search` output, and other or
unstattable entries are skipped. -/
def searchEntry (pat : List Nat) (f : Nat → Nat) (dirpath : String)
    (depth : Nat) : Entry → List (String × Nat) × List String
  | Entry.efile name st => (thread_search (dirpath ++ "/" ++ name) pat f st, [])
  | Entry.edir name listing => searchDir pat f (dirpath ++ "/" ++ name) depth listing
  | Entry.eother _ => ([], [])
  | Entry.estatfail _ => ([], [])
termination_by _ => (depth, 1)

/-- The `readdir` loop over a directory's entries, concatenating each
entry's matches and diagnostics in order. -/
def searchEntries (pat : List Nat) (f : Nat → Nat) (dirpath : String)
    (depth : Nat) : List Entry → List (String × Nat) × List String
  | [] => ([], [])
  | e :: es =>
    ((searchEntry pat f dirpath depth e).1 ++ (searchEntries pat f dirpath depth es).1,
     (searchEntry pat f dirpath depth e).2 ++ (searchEntries pat f dirpath depth es).2)
termination_by es => (depth, es.length + 2)

end

/-- One whole run of the tool as `main` performs it: pick the case callback
from the flag, then walk the tree from the root. -/
def runTool (root : String) (tree : Option (List Entry)) (pat : List Nat)
    (insensitive : Bool) (depth : Nat) : List (String × Nat) × List String :=
  searchDir pat (if insensitive then tolower else no_case_change) root depth tree

/-- The `readdir` loop distributes over list append: each entry contributes
its own output independently of its siblings. -/
theorem searchEntries_append (pat : List Nat) (f : Nat → Nat) (dirpath : String)
    (depth : Nat) (l₁ l₂ : List Entry) :
    searchEntries pat f dirpath depth (l₁ ++ l₂) =
      ((searchEntries pat f dirpath depth l₁).1 ++ (searchEntries pat f dirpath depth l₂).1,
       (searchEntries pat f dirpath depth l₁).2 ++ (searchEntries pat f dirpath depth l₂).2) := by
  induction l₁ with
  | nil => simp [searchEntries]
  | cons e es ih => simp [searchEntries, ih]

/-- Claim C5: a file entry that cannot be opened, whose size cannot be
determined, or whose size is zero contributes no match line and no
diagnostic, and removing it from the directory leaves the rest of the
traversal's output unchanged: the failure is confined to that entry and the
run continues over its siblings. -/
theorem bad_file_entry_confined :
    ∀ (pat : List Nat) (f : Nat → Nat) (dirpath : String) (depth : Nat)
      (name : String) (es₁ es₂ : List Entry),
      searchEntries pat f dirpath depth
          (es₁ ++ Entry.efile name FileStatus.openFail :: es₂) =
        searchEntries pat f dirpath depth (es₁ ++ es₂) ∧
      searchEntries pat f dirpath depth
          (es₁ ++ Entry.efile name FileStatus.fstatFail :: es₂) =
        searchEntries pat f dirpath depth (es₁ ++ es₂) ∧
      searchEntries pat f dirpath depth
          (es₁ ++ Entry.efile name (FileStatus.content []) :: es₂) =
        searchEntries pat f dirpath depth (es₁ ++ es₂) := by
  intro pat f dirpath depth name es₁ es₂
  refine ⟨?_, ?_, ?_⟩ <;>
    rw [searchEntries_append, searchEntries_append] <;>
    simp [searchEntries, searchEntry, thread_search]

/-- Claim C6: a directory reached with an exhausted depth budget produces
exactly the recursion-limit diagnostic and is not descended into; with a
positive budget the walker recurses with the budget decremented by one; and
a budget-limited subdirectory entry leaves the processing of its sibling
entries unchanged (the limit diagnostic is merely prepended). -/
theorem depth_limit_behavior :
    (∀ (pat : List Nat) (f : Nat → Nat) (dirpath : String)
        (listing : Option (List Entry)),
      searchDir pat f dirpath 0 listing =
        ([], ["Reached max recursion depth at " ++ dirpath])) ∧
    (∀ (pat : List Nat) (f : Nat → Nat) (dirpath : String) (k : Nat)
        (es : List Entry),
      searchDir pat f dirpath (k + 1) (some es) = searchEntries pat f dirpath k es) ∧
    (∀ (pat : List Nat) (f : Nat → Nat) (dirpath name : String)
        (listing : Option (List Entry)) (es : List Entry),
      searchEntries pat f dirpath 0 (Entry.edir name listing :: es) =
        ((searchEntries pat f dirpath 0 es).1,
         ("Reached max recursion depth at " ++ (dirpath ++ "/" ++ name)) ::
           (searchEntries pat f dirpath 0 es).2)) := by
  refine ⟨?_, ?_, ?_⟩
  · intro pat f dirpath listing
    rw [searchDir.eq_def]
    simp
  · intro pat f dirpath k es
    rw [searchDir.eq_def]
    simp
  · intro pat f dirpath name listing es
    rw [searchEntries]
    rw [searchEntry, searchDir.eq_def]
    simp

/-- Claim C7: the run is deterministic: over equal trees, patterns, case
flags and depth limits, two runs of the embedded tool produce equal match
streams (hence the same set of `(path, offset)` pairs); the underlying
search is a pure function of its inputs. -/
theorem run_deterministic :
    ∀ (root₁ root₂ : String) (t₁ t₂ : Option (List Entry)) (p₁ p₂ : List Nat)
      (ci₁ ci₂ : Bool) (d₁ d₂ : Nat),
      root₁ = root₂ → t₁ = t₂ → p₁ = p₂ → ci₁ = ci₂ → d₁ = d₂ →
      runTool root₁ t₁ p₁ ci₁ d₁ = runTool root₂ t₂ p₂ ci₂ d₂ := by
  intro root₁ root₂ t₁ t₂ p₁ p₂ ci₁ ci₂ d₁ d₂ h1 h2 h3 h4 h5
  subst h1; subst h2; subst h3; subst h4; subst h5
  rfl

/-- Witness for C7 on a one-file tree. -/
theorem run_deterministic_witness :
    runTool "root" (some [Entry.efile "a" (FileStatus.content [97, 98])]) [97] false 5 =
      runTool "root" (some [Entry.efile "a" (FileStatus.content [97, 98])]) [97] false 5 :=
  run_deterministic _ _ _ _ _ _ _ _ _ _ rfl rfl rfl rfl rfl

/-- Embedding of the `MAX_THREADS` cap from the source. -/
def MAX_THREADS : Nat := 256

/-- Whether an entry is a regular file that passed `stat` (the only case in
which `search_directory` spawns a scanner thread). -/
def isRegular : Entry → Bool
  | Entry.efile _ _ => true
  | _ => false

/-- Synchronisation events of one traversal frame: creating a scanner thread
and joining every outstanding thread of the batch. -/
inductive FrameEvent where
  | spawn : FrameEvent
  | joinAll : FrameEvent
deriving DecidableEq, Repr

/-- Number of outstanding (created, not yet joined) scanner threads after a
sequence of frame events, starting from `c` outstanding. -/
def outstanding (c : Nat) : List FrameEvent → Nat
  | [] => c
  | FrameEvent.spawn :: es => outstanding (c + 1) es
  | FrameEvent.joinAll :: es => outstanding 0 es

/-- Thread bookkeeping of the `readdir` loop, mirroring `thread_count` in
the source: each regular file spawns a thread; when the count reaches
`MAX_THREADS` the frame joins the whole batch and resets the count. -/
def frameTrace : List Entry → Nat → List FrameEvent
  | [], _ => []
  | e :: es, c =>
    if isRegular e then
      if c + 1 = MAX_THREADS then
        FrameEvent.spawn :: FrameEvent.joinAll :: frameTrace es 0
      else FrameEvent.spawn :: frameTrace es (c + 1)
    else frameTrace es c

/-- Full synchronisation trace of one traversal frame: the `readdir` loop's
events followed by the final join loop that runs before the frame returns. -/
def frameEvents (es : List Entry) : List FrameEvent :=
  frameTrace es 0 ++ [FrameEvent.joinAll]

/-- Outstanding-thread counting splits over event-list append. -/
theorem outstanding_append (l₁ l₂ : List FrameEvent) :
    ∀ c, outstanding c (l₁ ++ l₂) = outstanding (outstanding c l₁) l₂ := by
  induction l₁ with
  | nil => intro c; rfl
  | cons e es ih =>
    intro c
    cases e with
    | spawn => rw [List.cons_append, outstanding, outstanding, ih]
    | joinAll => rw [List.cons_append, outstanding, outstanding, ih]

/-- Invariant of the `readdir` loop: starting below the cap, the number of
outstanding threads never exceeds `MAX_THREADS` at any point of the frame's
trace. -/
theorem frameTrace_bound :
    ∀ (es : List Entry) (c : Nat), c < MAX_THREADS →
      ∀ pfx, pfx <+: frameTrace es c → outstanding c pfx ≤ MAX_THREADS := by
  intro es
  induction es with
  | nil =>
    intro c hc pfx hp
    rw [frameTrace] at hp
    rw [List.prefix_nil] at hp
    subst hp
    exact hc.le
  | cons e es ih =>
    intro c hc pfx hp
    rw [frameTrace] at hp
    by_cases hr : isRegular e
    · rw [if_pos hr] at hp
      by_cases hcap : c + 1 = MAX_THREADS
      · rw [if_pos hcap] at hp
        cases pfx with
        | nil => exact hc.le
        | cons a p1 =>
          obtain ⟨rest, hrest⟩ := hp
          injection hrest with ha hrest
          subst ha
          cases p1 with
          | nil =>
            rw [outstanding, outstanding]
            omega
          | cons b p2 =>
            injection hrest with hb hrest
            subst hb
            rw [outstanding, outstanding]
            exact ih 0 (by decide) p2 ⟨rest, hrest⟩
      · rw [if_neg hcap] at hp
        cases pfx with
        | nil => exact hc.le
        | cons a p1 =>
          obtain ⟨rest, hrest⟩ := hp
          injection hrest with ha hrest
          subst ha
          rw [outstanding]
          exact ih (c + 1) (by omega) p1 ⟨rest, hrest⟩
    · rw [if_neg hr] at hp
      exact ih c hc pfx hp

/-- Claim C8: for a directory with more regular files than the cap (and in
fact for any directory), at no point of the traversal frame are more than
`MAX_THREADS` scanner threads outstanding, and after the frame's final join
loop no thread remains outstanding: the frame returns to its caller only
after joining everything. -/
theorem concurrency_cap_bounded (es : List Entry)
    (_hN : MAX_THREADS < (es.filter isRegular).length) :
    (∀ pfx, pfx <+: frameEvents es → outstanding 0 pfx ≤ MAX_THREADS) ∧
      outstanding 0 (frameEvents es) = 0 := by
  constructor
  · intro pfx hp
    rw [frameEvents] at hp
    rw [List.prefix_concat_iff] at hp
    rcases hp with hp | hp
    · subst hp
      rw [outstanding_append]
      rw [outstanding, outstanding]
      omega
    · exact frameTrace_bound es 0 (by decide) pfx hp
  · rw [frameEvents, outstanding_append]
    rfl

set_option maxRecDepth 4000 in
/-- Witness for C8: a directory of 257 regular files (one more than the
cap). -/
theorem concurrency_cap_bounded_witness :
    MAX_THREADS <
        ((List.replicate 257 (Entry.efile "f" FileStatus.openFail)).filter
          isRegular).length ∧
      ((∀ pfx,
          pfx <+: frameEvents (List.replicate 257 (Entry.efile "f" FileStatus.openFail)) →
            outstanding 0 pfx ≤ MAX_THREADS) ∧
        outstanding 0
            (frameEvents (List.replicate 257 (Entry.efile "f" FileStatus.openFail))) = 0) :=
  ⟨by decide, concurrency_cap_bounded _ (by decide)⟩
